import Mathlib

/-!
# Verification of sprs sparse-matrix construction and Matrix-Market I/O

Shallow embedding of `src/sparse/construct.rs` and `src/io/mod.rs` of the
`sprs` crate. The compressed-matrix primitive (`CsMat` and its basic
operations) is an external collaborator of the code under verification; it is
modelled from the specification's data model and external-interface sections.
The construction functions (`same_storage_fast_stack`, `vstack`, `hstack`,
`bmat`, `csr_from_dense`) and the Matrix-Market reader
(`read_matrix_market`) are translated from the source. Numeric entries are
embedded as `Int` (the source is generic over a numeric element type);
floating-point values of the Matrix-Market reader are embedded as exact
rationals.
-/

/-- Modelled from the spec: storage orientation of a compressed matrix
(`storage` (enum: RowMajor | ColumnMajor)). -/
inductive CompressedStorage
  | CSR
  | CSC
deriving DecidableEq

export CompressedStorage (CSR CSC)

/-- Error type of `src/errors.rs` as used by `construct.rs` (the five
variants that the construction functions can produce). -/
inductive SprsError
  | EmptyStackingList
  | IncompatibleDimensions
  | IncompatibleStorages
  | EmptyBmatRow
  | EmptyBmatCol
deriving DecidableEq

/-- Modelled from the spec: the Compressed Matrix entity, with attributes
`rows`, `cols`, `storage`, `outer_ptr` (`indptr`), `inner_indices`
(`indices`) and `values` (`data`). -/
structure CsMat where
  storage : CompressedStorage
  nrows : Nat
  ncols : Nat
  indptr : List Nat
  indices : List Nat
  data : List Int
deriving DecidableEq

/-- Modelled from the spec: `outer_dim` = rows if RowMajor else cols. -/
def CsMat.outerDims (m : CsMat) : Nat :=
  match m.storage with
  | CSR => m.nrows
  | CSC => m.ncols

/-- Modelled from the spec: `inner_dim` = cols if RowMajor else rows. -/
def CsMat.innerDims (m : CsMat) : Nat :=
  match m.storage with
  | CSR => m.ncols
  | CSC => m.nrows

/-- Modelled from the spec: the per-outer-index sparse vectors exposed by the
primitive's outer iterator: vector `k` is the slice of
(index, value) pairs between `indptr[k]` and `indptr[k+1]`. -/
def CsMat.outerVecs (m : CsMat) : List (List (Nat × Int)) :=
  (List.range m.outerDims).map (fun k =>
    ((m.indices.zip m.data).drop (m.indptr.getD k 0)).take
      (m.indptr.getD (k + 1) 0 - m.indptr.getD k 0))

/-- Modelled from the spec: the empty-matrix constructor (given orientation
and inner dimension), with outer dimension zero. -/
def CsMat.empty (storage : CompressedStorage) (innerDim : Nat) : CsMat :=
  match storage with
  | CSR => ⟨CSR, 0, innerDim, [0], [], []⟩
  | CSC => ⟨CSC, innerDim, 0, [0], [], []⟩

/-- Modelled from the spec: the all-zero matrix constructor (given rows,
cols); row-major with no stored entry. -/
def CsMat.zero (rows cols : Nat) : CsMat :=
  ⟨CSR, rows, cols, List.replicate (rows + 1) 0, [], []⟩

/-- Modelled from the spec: the append-outer-vector mutation (push one more
row's/column's sparse data onto a growing matrix). -/
def append_outer_csvec (m : CsMat) (v : List (Nat × Int)) : CsMat :=
  { storage := m.storage
    nrows := match m.storage with | CSR => m.nrows + 1 | CSC => m.nrows
    ncols := match m.storage with | CSR => m.ncols | CSC => m.ncols + 1
    indptr := m.indptr ++ [m.indptr.getLastD 0 + v.length]
    indices := m.indices ++ v.map Prod.fst
    data := m.data ++ v.map Prod.snd }

/-- Stored value at position `(i, j)`, if any: search the outer vector of the
row (CSR) or column (CSC) for the matching inner index. -/
def CsMat.getEntryOpt (m : CsMat) (i j : Nat) : Option Int :=
  match m.storage with
  | CSR => ((m.outerVecs.getD i []).find? (fun p => p.1 == j)).map Prod.snd
  | CSC => ((m.outerVecs.getD j []).find? (fun p => p.1 == i)).map Prod.snd

/-- The shape-inference fold for block-rows of `bmat`. -/
def rowsPerRow (grid : List (List (Option CsMat))) : List Nat :=
  grid.map fun row => row.foldl (fun nrows mopt =>
    match mopt with
    | none => nrows
    | some m => max nrows m.nrows) 0

/-- The shape-inference fold for block-columns of `bmat`. -/
def colsPerCol (grid : List (List (Option CsMat))) : List Nat :=
  (List.range (grid.headD []).length).map fun j =>
    grid.foldl (fun ncols row =>
      match row.getD j none with
      | none => ncols
      | some m => max ncols m.ncols) 0

/-- Translation of `same_storage_fast_stack` (`construct.rs`, lines 12-42):
reject an empty list, mismatched inner dimensions, mismatched storages;
otherwise append every outer vector of every input, in order, to an empty
matrix of the shared storage and inner dimension. -/
def same_storage_fast_stack (mats : List CsMat) : Except SprsError CsMat :=
  match mats with
  | [] => .error .EmptyStackingList
  | m0 :: _ =>
    if !(mats.all fun x => x.innerDims == m0.innerDims) then
      .error .IncompatibleDimensions
    else if !(mats.all fun x => x.storage == m0.storage) then
      .error .IncompatibleStorages
    else
      .ok (mats.foldl (fun res mat => mat.outerVecs.foldl append_outer_csvec res)
        (CsMat.empty m0.storage m0.innerDims))

/-- Collect, in ascending order of the `n` positions `k, k+1, ..., k+n-1`,
the pairs `(pos, value)` for which `g pos` is present. Helper for the
modelled format conversions. -/
def gatherPresent (g : Nat → Option Int) : Nat → Nat → List (Nat × Int)
  | _, 0 => []
  | k, n + 1 =>
    match g k with
    | none => gatherPresent g (k + 1) n
    | some v => (k, v) :: gatherPresent g (k + 1) n

/-- Modelled from the spec: the primitive's conversion to row-major storage.
A row-major matrix is returned as is; a column-major matrix is rebuilt row by
row, each row listing its stored entries in ascending column order. -/
def CsMat.toCsr (m : CsMat) : CsMat :=
  match m.storage with
  | CSR => m
  | CSC =>
    ((List.range m.nrows).map fun i =>
        gatherPresent (fun j => m.getEntryOpt i j) 0 m.ncols).foldl
      append_outer_csvec (CsMat.empty CSR m.ncols)

/-- Modelled from the spec: the primitive's conversion to column-major
storage, symmetric to `CsMat.toCsr`. -/
def CsMat.toCsc (m : CsMat) : CsMat :=
  match m.storage with
  | CSC => m
  | CSR =>
    ((List.range m.ncols).map fun j =>
        gatherPresent (fun i => m.getEntryOpt i j) 0 m.nrows).foldl
      append_outer_csvec (CsMat.empty CSC m.nrows)

/-- Translation of `vstack` (`construct.rs`, lines 44-56): fast path when all
inputs are row-major, otherwise convert every input to row-major first. -/
def vstack (mats : List CsMat) : Except SprsError CsMat :=
  if mats.all (fun x => x.storage == CSR) then
    same_storage_fast_stack mats
  else
    same_storage_fast_stack (mats.map CsMat.toCsr)

/-- Translation of `hstack` (`construct.rs`, lines 58-70): fast path when all
inputs are column-major, otherwise convert every input to column-major. -/
def hstack (mats : List CsMat) : Except SprsError CsMat :=
  if mats.all (fun x => x.storage == CSC) then
    same_storage_fast_stack mats
  else
    same_storage_fast_stack (mats.map CsMat.toCsc)

/-- Pair each element of a list with its position, starting at `k`
(the `enumerate` iterator of the source). -/
def enumFrom {α : Type} (k : Nat) : List α → List (Nat × α)
  | [] => []
  | x :: xs => (k, x) :: enumFrom (k + 1) xs

/-- The block-assembly loop of `bmat` (`construct.rs`, lines 125-133): for
each block-row (paired with its index), replace absent cells by zero blocks
of the inferred shape and horizontally stack the row; the first stacking
error aborts the loop (`try!`). -/
def buildBands (rows_per_row cols_per_col : List Nat) :
    List (Nat × List (Option CsMat)) → Except SprsError (List CsMat)
  | [] => .ok []
  | (i, row) :: rest =>
    match hstack ((enumFrom 0 row).map fun jm =>
        jm.2.getD (CsMat.zero (rows_per_row.getD i 0)
          (cols_per_col.getD jm.1 0))) with
    | .error e => .error e
    | .ok band =>
      match buildBands rows_per_row cols_per_col rest with
      | .error e => .error e
      | .ok bands => .ok (band :: bands)

/-- Translation of `bmat` (`construct.rs`, lines 84-136): validate the grid
(non-empty, rectangular, no all-absent block-row or block-column), infer the
shapes of the absent blocks as row/column maxima, replace absent cells by
zero blocks, then hstack each block-row and vstack the resulting bands. -/
def bmat (mats : List (List (Option CsMat))) : Except SprsError CsMat :=
  let super_rows := mats.length
  if super_rows = 0 then .error .EmptyStackingList
  else
    let super_cols := (mats.headD []).length
    if super_cols = 0 then .error .EmptyStackingList
    else if !(mats.all fun x => x.length == super_cols) then
      .error .IncompatibleDimensions
    else if mats.any (fun x => x.all fun y => y.isNone) then
      .error .EmptyBmatRow
    else if (List.range super_cols).any
        (fun j => mats.all fun x => (x.getD j none).isNone) then
      .error .EmptyBmatCol
    else
      match buildBands (rowsPerRow mats) (colsPerCol mats)
          (enumFrom 0 mats) with
      | .error e => .error e
      | .ok bands => vstack bands

/-- Running sums: `cumSums acc [c0, c1, ...] = [acc, acc+c0, acc+c0+c1, ...]`.
This is the outer-pointer array that the first pass of `csr_from_dense`
accumulates. -/
def cumSums (acc : Nat) : List Nat → List Nat
  | [] => [acc]
  | c :: cs => acc :: cumSums (acc + c) cs

/-- Translation of `csr_from_dense` (`construct.rs`, lines 142-173): clamp a
non-positive epsilon to zero, keep the entries of each row whose absolute
value strictly exceeds epsilon (in left-to-right order), and assemble the
row-major arrays (pass 1 accumulates the per-row counts into the outer
pointer, pass 2 emits the kept column indices and values). The dense view is
a list of rows; its column count is the length of the first row. -/
def csr_from_dense (m : List (List Int)) (epsilon : Int) : CsMat :=
  let eps := if 0 < epsilon then epsilon else 0
  let rows := m.length
  let cols := (m.headD []).length
  let kept := m.map fun row => (enumFrom 0 row).filter fun ci => eps < |ci.2|
  { storage := CSR
    nrows := rows
    ncols := cols
    indptr := cumSums 0 (kept.map List.length)
    indices := (kept.map fun v => v.map Prod.fst).flatten
    data := (kept.map fun v => v.map Prod.snd).flatten }

/-! ## Matrix-Market reader (`src/io/mod.rs`)

The file is embedded as the list of lines that successive `read_line` calls
return: each line carries its trailing newline character, and once the list
is exhausted every further `read_line` yields an empty string (length 0).
The whole reader returns `Option (Except IoError ...)`, `none` standing for
the non-terminating loops the source enters when it reaches the end of file
while skipping lines. -/

/-- Error type of `src/io/mod.rs` (the `Io` variant carries an I/O error and
is unreachable in the embedded, in-memory file model). -/
inductive IoError
  | BadMatrixMarketFile
  | UnsupportedMatrixMarketFormat
deriving DecidableEq

/-- `enum DataType` of `src/io/mod.rs`. -/
inductive DataType
  | Integer
  | Real
deriving DecidableEq

/-- A parsed Matrix-Market value: the integer kind parses `usize` values,
the real kind parses `f64` values, embedded as exact rationals. -/
inductive MMValue
  | int (n : Nat)
  | real (q : Rat)
deriving DecidableEq

/-- Modelled from the spec: the triplet matrix returned by
`TriMatI::from_triplets` (an external primitive) — shape plus the parallel
row-index, column-index and value lists. -/
structure TriMat where
  rows : Nat
  cols : Nat
  rowInds : List Nat
  colInds : List Nat
  data : List MMValue
deriving DecidableEq

/-- `str::starts_with` on the character lists of the two strings. -/
def isPrefixStr (pre s : String) : Bool := pre.data.isPrefixOf s.data

/-- Substring search on character lists (`str::contains`). -/
def infixCheck (pat : List Char) : List Char → Bool
  | [] => pat.isEmpty
  | c :: rest => pat.isPrefixOf (c :: rest) || infixCheck pat rest

/-- `str::contains` with a string pattern. -/
def containsStr (s pat : String) : Bool := infixCheck pat.data s.data

/-- `str::to_lowercase` (ASCII case folding suffices for the header tags). -/
def toLowerStr (s : String) : String := ⟨s.data.map Char.toLower⟩

/-- `str::split_whitespace`: maximal runs of non-whitespace characters.
`cur` holds the reversed characters of the token being read. -/
def splitWSAux (cur : List Char) : List Char → List (List Char)
  | [] => if cur.isEmpty then [] else [cur.reverse]
  | c :: rest =>
    if c.isWhitespace then
      if cur.isEmpty then splitWSAux [] rest
      else cur.reverse :: splitWSAux [] rest
    else splitWSAux (c :: cur) rest

/-- `str::split_whitespace` on a string. -/
def splitWS (s : String) : List (List Char) := splitWSAux [] s.data

/-- Digit-string value (no sign): `none` unless the token is a non-empty
run of decimal digits. -/
def digitsToNat (l : List Char) : Option Nat :=
  if l.isEmpty then none
  else if l.all Char.isDigit then
    some (l.foldl (fun a c => 10 * a + (c.toNat - 48)) 0)
  else none

/-- `str::parse::<usize>`: an optional leading `+` followed by decimal
digits; a leading `-` (or any other non-digit) fails. -/
def parseNatTok (l : List Char) : Option Nat :=
  match l with
  | '+' :: rest => digitsToNat rest
  | _ => digitsToNat l

/-- Numeric value of a digit run (helper for the rational parser). -/
def natVal (l : List Char) : Nat :=
  l.foldl (fun a c => 10 * a + (c.toNat - 48)) 0

/-- Exponent suffix of a floating-point literal: empty, or `e`/`E` followed
by an optionally signed digit run ending the token. -/
def parseExpSuffix (base : Rat) : List Char → Option Rat
  | [] => some base
  | e :: r =>
    if e == 'e' || e == 'E' then
      let (es, r2) : Int × List Char :=
        match r with
        | '+' :: rr => (1, rr)
        | '-' :: rr => (-1, rr)
        | _ => (1, r)
      let ds := r2.takeWhile Char.isDigit
      let r3 := r2.dropWhile Char.isDigit
      if ds.isEmpty || !r3.isEmpty then none
      else some (base * (10 : Rat) ^ (es * (natVal ds : Int)))
    else none

/-- `str::parse::<f64>`, embedded exactly: an optionally signed decimal
literal with optional fraction and exponent, valued as a rational (special
floating-point spellings such as `inf`/`NaN` are not modelled; no theorem
below depends on this parser's successes). -/
def parseRatTok (l : List Char) : Option Rat :=
  let (sgn, l1) : Rat × List Char :=
    match l with
    | '+' :: r => (1, r)
    | '-' :: r => (-1, r)
    | _ => (1, l)
  let ip := l1.takeWhile Char.isDigit
  let r1 := l1.dropWhile Char.isDigit
  match r1 with
  | '.' :: r2 =>
    let fp := r2.takeWhile Char.isDigit
    let r3 := r2.dropWhile Char.isDigit
    if ip.isEmpty && fp.isEmpty then none
    else parseExpSuffix (sgn * ((natVal ip : Rat) + (natVal fp : Rat) / (10 : Rat) ^ fp.length)) r3
  | other =>
    if ip.isEmpty then none
    else parseExpSuffix (sgn * (natVal ip : Rat)) other

/-- One `read_line` call: the next line of the file, or an empty string of
length 0 at end of file. -/
def headLine : List String → String × List String
  | [] => ("", [])
  | l :: ls => (l, ls)

/-- The comment-skipping loop after the header (`io/mod.rs`, lines 116-124):
skip lines of length 0 or lines starting with `%`; `none` when the file ends
first (the source then loops forever, `read_line` returning 0 at EOF). -/
def skipCommentLines : List String → Option (String × List String)
  | [] => none
  | l :: ls =>
    if l.data.isEmpty || isPrefixStr "%" l then skipCommentLines ls
    else some (l, ls)

/-- The empty-line-skipping loop before each entry (`io/mod.rs`, lines
146-154): skip lines of length 0 only; `none` when the file ends first. -/
def skipEmptyLines : List String → Option (String × List String)
  | [] => none
  | l :: ls => if l.data.isEmpty then skipEmptyLines ls else some (l, ls)

/-- Parsing of one data line (`io/mod.rs`, lines 161-193): whitespace-split
into `row col value`, both indices parsed as `usize` and decremented
(`checked_sub(1)` fails on 0), the value parsed according to the data type;
a missing field, an unparsable field or a trailing extra field is an error.
Returns the 0-based indices and the value. -/
def parseDataLine (dt : DataType) (line : String) : Except IoError (Nat × Nat × MMValue) :=
  match splitWS line with
  | rt :: ct :: rest =>
    match parseNatTok rt, parseNatTok ct with
    | some row, some col =>
      if row = 0 ∨ col = 0 then .error .BadMatrixMarketFile
      else
        match rest with
        | [vt] =>
          match (match dt with
                 | .Integer => (parseNatTok vt).map MMValue.int
                 | .Real => (parseRatTok vt).map MMValue.real) with
          | some v => .ok (row - 1, col - 1, v)
          | none => .error .BadMatrixMarketFile
        | _ => .error .BadMatrixMarketFile
    | _, _ => .error .BadMatrixMarketFile
  | _ => .error .BadMatrixMarketFile

/-- The entry-reading loop (`io/mod.rs`, lines 144-194): `entries` times,
skip empty lines, then parse one data line and accumulate its triplet. -/
def readEntries (dt : DataType) : Nat → List String → List Nat → List Nat →
    List MMValue → Option (Except IoError (List Nat × List Nat × List MMValue))
  | 0, _, ri, ci, ds => some (.ok (ri, ci, ds))
  | k + 1, ls, ri, ci, ds =>
    match skipEmptyLines ls with
    | none => none
    | some (line, rest) =>
      match parseDataLine dt line with
      | .error e => some (.error e)
      | .ok (r, c, v) =>
        readEntries dt k rest (ri ++ [r]) (ci ++ [c]) (ds ++ [v])

/-- Assembly of the final triplet matrix from the entry-loop result. -/
def finishEntries (rows cols : Nat)
    (res : Option (Except IoError (List Nat × List Nat × List MMValue))) :
    Option (Except IoError TriMat) :=
  match res with
  | none => none
  | some (.error e) => some (.error e)
  | some (.ok (ri, ci, ds)) => some (.ok ⟨rows, cols, ri, ci, ds⟩)

/-- Translation of `read_matrix_market` (`io/mod.rs`, lines 87-197) over the
in-memory line list: check the lowercased header for the
`%%matrixmarket matrix coordinate` prefix and the `general` qualifier,
detect the data kind by searching the raw header line for `real` or
`integer`, skip comment lines, parse the dimension line (whitespace tokens
that parse as `usize`, exactly three required), then read the declared
number of entries. -/
def read_matrix_market (file : List String) : Option (Except IoError TriMat) :=
  let (line, rest) := headLine file
  let header := toLowerStr line
  if !isPrefixStr "%%matrixmarket matrix coordinate" header then
    some (.error .BadMatrixMarketFile)
  else if !containsStr header "general" then
    some (.error .UnsupportedMatrixMarketFormat)
  else
    match (if containsStr line "real" then some DataType.Real
           else if containsStr line "integer" then some DataType.Integer
           else none) with
    | none => some (.error .UnsupportedMatrixMarketFormat)
    | some dt =>
      match skipCommentLines rest with
      | none => none
      | some (dline, rest2) =>
        match (splitWS dline).filterMap parseNatTok with
        | [rows, cols, entries] =>
          finishEntries rows cols (readEntries dt entries rest2 [] [] [])
        | _ => some (.error .BadMatrixMarketFile)

/-! ## Invariant of matrices grown by `append_outer_csvec` -/

/-- Structural invariant of a matrix under assembly: the outer pointer has
one entry per outer slot plus one, ends at the number of stored entries,
index and value arrays run in parallel, and every outer-pointer entry stays
within the stored arrays. -/
def StackInv (m : CsMat) : Prop :=
  m.indptr.length = m.outerDims + 1 ∧
  m.indptr.getLastD 0 = m.indices.length ∧
  m.indices.length = m.data.length ∧
  ∀ p ∈ m.indptr, p ≤ m.indices.length

theorem empty_storage (s : CompressedStorage) (d : Nat) :
    (CsMat.empty s d).storage = s := by cases s <;> rfl

theorem empty_innerDims (s : CompressedStorage) (d : Nat) :
    (CsMat.empty s d).innerDims = d := by cases s <;> rfl

theorem empty_outerDims (s : CompressedStorage) (d : Nat) :
    (CsMat.empty s d).outerDims = 0 := by cases s <;> rfl

theorem empty_outerVecs (s : CompressedStorage) (d : Nat) :
    (CsMat.empty s d).outerVecs = [] := by
  cases s <;> simp [CsMat.outerVecs, empty_outerDims, CsMat.outerDims, CsMat.empty]

theorem empty_stackInv (s : CompressedStorage) (d : Nat) :
    StackInv (CsMat.empty s d) := by
  cases s <;> simp [StackInv, CsMat.empty, CsMat.outerDims]

theorem append_storage (m : CsMat) (v : List (Nat × Int)) :
    (append_outer_csvec m v).storage = m.storage := rfl

theorem append_innerDims (m : CsMat) (v : List (Nat × Int)) :
    (append_outer_csvec m v).innerDims = m.innerDims := by
  cases hs : m.storage <;>
    simp [CsMat.innerDims, append_outer_csvec, hs]

theorem append_outerDims (m : CsMat) (v : List (Nat × Int)) :
    (append_outer_csvec m v).outerDims = m.outerDims + 1 := by
  cases hs : m.storage <;>
    simp [CsMat.outerDims, append_outer_csvec, hs]

theorem getLastD_eq_getD (l : List Nat) (d : Nat) (h : l ≠ []) :
    l.getLastD d = l.getD (l.length - 1) d := by
  induction l with
  | nil => simp at h
  | cons a as ih =>
    cases as with
    | nil => rfl
    | cons b bs =>
      have := ih (by simp)
      simp only [List.getLastD_cons] at this ⊢
      simpa [List.getD_cons_succ] using this

theorem append_outerVecs (m : CsMat) (v : List (Nat × Int)) (h : StackInv m) :
    (append_outer_csvec m v).outerVecs = m.outerVecs ++ [v] := by
  obtain ⟨hlen, hlast, hdat, hbnd⟩ := h
  have hzlen : (m.indices.zip m.data).length = m.indices.length := by
    simp [hdat]
  have hne : m.indptr ≠ [] := by
    intro hnil; rw [hnil] at hlen; simp at hlen
  -- the zipped entry array of the appended matrix
  have hzip : ((append_outer_csvec m v).indices.zip (append_outer_csvec m v).data)
      = m.indices.zip m.data ++ v := by
    simp only [append_outer_csvec]
    rw [List.zip_append (by simp [hdat]), List.zip_map']
    simp
  have hgetD : ∀ k, k < m.indptr.length →
      (append_outer_csvec m v).indptr.getD k 0 = m.indptr.getD k 0 := by
    intro k hk
    simp only [append_outer_csvec]
    rw [List.getD_append _ _ _ _ hk]
  have hlastidx : m.indptr.getD (m.indptr.length - 1) 0 = m.indices.length := by
    rw [← getLastD_eq_getD _ _ hne, hlast]
  simp only [CsMat.outerVecs, append_outerDims, List.range_succ, List.map_append,
    List.map_cons, List.map_nil]
  congr 1
  · -- the old segments are unchanged
    apply List.map_congr_left
    intro k hk
    have hk' : k < m.outerDims := List.mem_range.mp hk
    have h1 : k < m.indptr.length := by omega
    have h2 : k + 1 < m.indptr.length := by omega
    rw [hgetD k h1, hgetD (k + 1) h2, hzip]
    have hpk : m.indptr.getD k 0 ≤ (m.indices.zip m.data).length := by
      rw [hzlen, List.getD_eq_getElem _ _ h1]
      exact hbnd _ (List.getElem_mem h1)
    have hpk1 : m.indptr.getD (k + 1) 0 ≤ (m.indices.zip m.data).length := by
      rw [hzlen, List.getD_eq_getElem _ _ h2]
      exact hbnd _ (List.getElem_mem h2)
    rw [List.drop_append_eq_append_drop]
    have hd0 : m.indptr.getD k 0 - (m.indices.zip m.data).length = 0 := by omega
    rw [hd0, List.drop_zero, List.take_append_eq_append_take]
    have ht0 : m.indptr.getD (k + 1) 0 - m.indptr.getD k 0 -
        ((m.indices.zip m.data).drop (m.indptr.getD k 0)).length = 0 := by
      rw [List.length_drop]; omega
    rw [ht0, List.take_zero, List.append_nil]
  · -- the new last segment is exactly `v`
    have hn1 : m.outerDims < m.indptr.length := by omega
    have hv1 : (append_outer_csvec m v).indptr.getD m.outerDims 0
        = m.indices.length := by
      rw [hgetD _ hn1]
      have : m.indptr.length - 1 = m.outerDims := by omega
      rw [← this, hlastidx]
    have hv2 : (append_outer_csvec m v).indptr.getD (m.outerDims + 1) 0
        = m.indices.length + v.length := by
      simp only [append_outer_csvec]
      rw [List.getD_append_right _ _ _ _ (by omega)]
      have h0 : m.outerDims + 1 - m.indptr.length = 0 := by omega
      rw [h0, List.getD_cons_zero, hlast]
    rw [hzip, hv1, hv2, List.drop_append_eq_append_drop]
    have : m.indices.length - (m.indices.zip m.data).length = 0 := by omega
    rw [this, List.drop_zero, List.drop_eq_nil_of_le (by omega), List.nil_append]
    simp

theorem append_stackInv (m : CsMat) (v : List (Nat × Int)) (h : StackInv m) :
    StackInv (append_outer_csvec m v) := by
  obtain ⟨hlen, hlast, hdat, hbnd⟩ := h
  refine ⟨?_, ?_, ?_, ?_⟩
  · rw [append_outerDims]
    simp only [append_outer_csvec, List.length_append, List.length_cons,
      List.length_nil]
    omega
  · simp only [append_outer_csvec]
    rw [List.getLastD_concat, hlast]
    simp
  · simp [append_outer_csvec, hdat]
  · intro p hp
    simp only [append_outer_csvec, List.mem_append, List.mem_singleton] at hp
    simp only [append_outer_csvec, List.length_append, List.length_map]
    rcases hp with hp | hp
    · have := hbnd p hp; omega
    · rw [hp, hlast]

/-- Folding `append_outer_csvec` over a list of sparse vectors grows the
matrix by exactly those outer vectors, preserving storage and inner
dimension. -/
theorem foldl_append_spec (vecs : List (List (Nat × Int))) (m : CsMat)
    (h : StackInv m) :
    (vecs.foldl append_outer_csvec m).storage = m.storage ∧
    (vecs.foldl append_outer_csvec m).innerDims = m.innerDims ∧
    (vecs.foldl append_outer_csvec m).outerDims = m.outerDims + vecs.length ∧
    (vecs.foldl append_outer_csvec m).outerVecs = m.outerVecs ++ vecs ∧
    StackInv (vecs.foldl append_outer_csvec m) := by
  induction vecs generalizing m with
  | nil => exact ⟨rfl, rfl, by simp, by simp, h⟩
  | cons v vs ih =>
    have h' := append_stackInv m v h
    obtain ⟨h1, h2, h3, h4, h5⟩ := ih (append_outer_csvec m v) h'
    refine ⟨?_, ?_, ?_, ?_, ?_⟩
    · rw [List.foldl_cons, h1, append_storage]
    · rw [List.foldl_cons, h2, append_innerDims]
    · rw [List.foldl_cons, h3, append_outerDims]
      simp [Nat.add_assoc, Nat.add_comm 1 vs.length]
    · rw [List.foldl_cons, h4, append_outerVecs m v h]
      simp
    · rw [List.foldl_cons]; exact h5

/-- The nested loop of `same_storage_fast_stack` is the flat fold over the
concatenation of all outer vectors. -/
theorem foldl_outerVecs_flatten (mats : List CsMat) (m : CsMat) :
    mats.foldl (fun res mat => mat.outerVecs.foldl append_outer_csvec res) m =
      ((mats.map CsMat.outerVecs).flatten).foldl append_outer_csvec m := by
  induction mats generalizing m with
  | nil => rfl
  | cons a as ih => simp [ih, List.foldl_append]

/-- Successful run of `same_storage_fast_stack`: when the inputs share
storage and inner dimension, the result is the fold of all their outer
vectors over the empty matrix. -/
theorem ssfs_ok (m0 : CsMat) (rest : List CsMat)
    (hinner : ∀ x ∈ m0 :: rest, x.innerDims = m0.innerDims)
    (hstor : ∀ x ∈ m0 :: rest, x.storage = m0.storage) :
    same_storage_fast_stack (m0 :: rest) =
      .ok ((((m0 :: rest).map CsMat.outerVecs).flatten).foldl append_outer_csvec
        (CsMat.empty m0.storage m0.innerDims)) := by
  have hc1 : ((m0 :: rest).all fun x => x.innerDims == m0.innerDims) = true := by
    simp only [List.all_eq_true]
    intro x hx
    simp [hinner x hx]
  have hc2 : ((m0 :: rest).all fun x => x.storage == m0.storage) = true := by
    simp only [List.all_eq_true]
    intro x hx
    simp [hstor x hx]
  simp only [same_storage_fast_stack, hc1, hc2, Bool.not_true, Bool.false_eq_true,
    if_false, foldl_outerVecs_flatten]

theorem outerVecs_length (m : CsMat) : m.outerVecs.length = m.outerDims := by
  simp [CsMat.outerVecs]

/-- C1: for every non-empty list of compressed matrices sharing storage
orientation `s` and inner dimension `d`, `same_storage_fast_stack` returns
`Ok` with a matrix of storage `s` and inner dimension `d` whose outer
dimension is the sum of the inputs' outer dimensions and whose outer-vector
sequence is the concatenation, in input order, of the inputs' outer-vector
sequences (so outer vector `k` of the result is the `k`-th outer vector in
concatenation order). -/
theorem same_storage_fast_stack_correct (mats : List CsMat)
    (s : CompressedStorage) (d : Nat) (hne : mats ≠ [])
    (hstor : ∀ x ∈ mats, x.storage = s) (hinner : ∀ x ∈ mats, x.innerDims = d) :
    ∃ res, same_storage_fast_stack mats = .ok res ∧
      res.storage = s ∧ res.innerDims = d ∧
      res.outerDims = (mats.map CsMat.outerDims).sum ∧
      res.outerVecs = (mats.map CsMat.outerVecs).flatten := by
  match mats, hne with
  | m0 :: rest, _ =>
    have hs0 : m0.storage = s := hstor m0 (List.mem_cons_self _ _)
    have hd0 : m0.innerDims = d := hinner m0 (List.mem_cons_self _ _)
    have heq := ssfs_ok m0 rest
      (fun x hx => by rw [hinner x hx, hd0])
      (fun x hx => by rw [hstor x hx, hs0])
    obtain ⟨h1, h2, h3, h4, _⟩ := foldl_append_spec
      (((m0 :: rest).map CsMat.outerVecs).flatten)
      (CsMat.empty m0.storage m0.innerDims) (empty_stackInv _ _)
    refine ⟨_, heq, ?_, ?_, ?_, ?_⟩
    · rw [h1, empty_storage, hs0]
    · rw [h2, empty_innerDims, hd0]
    · rw [h3, empty_outerDims, Nat.zero_add, List.length_flatten, List.map_map]
      have hcomp : List.length ∘ CsMat.outerVecs = CsMat.outerDims :=
        funext outerVecs_length
      rw [hcomp]
    · rw [h4, empty_outerVecs, List.nil_append]

theorem same_storage_fast_stack_correct_witness :
    (([⟨CSR, 1, 2, [0, 1], [0], [5]⟩, ⟨CSR, 2, 2, [0, 1, 2], [1, 0], [7, 8]⟩]
        : List CsMat) ≠ [] ∧
      (∀ x ∈ ([⟨CSR, 1, 2, [0, 1], [0], [5]⟩,
          ⟨CSR, 2, 2, [0, 1, 2], [1, 0], [7, 8]⟩] : List CsMat),
        x.storage = CSR) ∧
      (∀ x ∈ ([⟨CSR, 1, 2, [0, 1], [0], [5]⟩,
          ⟨CSR, 2, 2, [0, 1, 2], [1, 0], [7, 8]⟩] : List CsMat),
        x.innerDims = 2)) ∧
    ∃ res, same_storage_fast_stack
        [⟨CSR, 1, 2, [0, 1], [0], [5]⟩, ⟨CSR, 2, 2, [0, 1, 2], [1, 0], [7, 8]⟩]
        = .ok res ∧
      res.storage = CSR ∧ res.innerDims = 2 ∧
      res.outerDims = ((([⟨CSR, 1, 2, [0, 1], [0], [5]⟩,
        ⟨CSR, 2, 2, [0, 1, 2], [1, 0], [7, 8]⟩] : List CsMat)).map
          CsMat.outerDims).sum ∧
      res.outerVecs = ((([⟨CSR, 1, 2, [0, 1], [0], [5]⟩,
        ⟨CSR, 2, 2, [0, 1, 2], [1, 0], [7, 8]⟩] : List CsMat)).map
          CsMat.outerVecs).flatten :=
  ⟨⟨by decide, by decide, by decide⟩,
    same_storage_fast_stack_correct _ CSR 2 (by decide) (by decide) (by decide)⟩

/-- All-equal under `f` of a non-empty list, compared with the head, is the
pairwise all-equal condition. -/
theorem all_eq_head_iff {α β : Type} [DecidableEq β] (f : α → β) (m0 : α)
    (rest : List α) :
    ((m0 :: rest).all fun x => f x == f m0) = true ↔
      ∀ x ∈ m0 :: rest, ∀ y ∈ m0 :: rest, f x = f y := by
  constructor
  · intro h x hx y hy
    simp only [List.all_eq_true, beq_iff_eq] at h
    rw [h x hx, h y hy]
  · intro h
    simp only [List.all_eq_true, beq_iff_eq]
    intro x hx
    exact h x hx m0 (List.mem_cons_self _ _)

/-- C4: `same_storage_fast_stack` fails with `EmptyStackingList` exactly on
the empty list, with `IncompatibleDimensions` exactly when the list is
non-empty and the inner dimensions are not all equal, with
`IncompatibleStorages` exactly when the inner dimensions all agree but the
storages do not, and succeeds in every remaining case — so these are its
only failure modes. -/
theorem same_storage_fast_stack_error_modes (mats : List CsMat) :
    (same_storage_fast_stack mats = .error .EmptyStackingList ↔ mats = []) ∧
    (same_storage_fast_stack mats = .error .IncompatibleDimensions ↔
      mats ≠ [] ∧ ¬ ∀ x ∈ mats, ∀ y ∈ mats, x.innerDims = y.innerDims) ∧
    (same_storage_fast_stack mats = .error .IncompatibleStorages ↔
      mats ≠ [] ∧ (∀ x ∈ mats, ∀ y ∈ mats, x.innerDims = y.innerDims) ∧
        ¬ ∀ x ∈ mats, ∀ y ∈ mats, x.storage = y.storage) ∧
    ((∃ m, same_storage_fast_stack mats = .ok m) ↔
      mats ≠ [] ∧ (∀ x ∈ mats, ∀ y ∈ mats, x.innerDims = y.innerDims) ∧
        ∀ x ∈ mats, ∀ y ∈ mats, x.storage = y.storage) := by
  match mats with
  | [] =>
    refine ⟨by simp [same_storage_fast_stack], ?_, ?_, ?_⟩ <;>
      simp [same_storage_fast_stack]
  | m0 :: rest =>
    by_cases hP : ((m0 :: rest).all fun x => x.innerDims == m0.innerDims) = true
    · have hPiff := (all_eq_head_iff CsMat.innerDims m0 rest).mp hP
      by_cases hQ : ((m0 :: rest).all fun x => x.storage == m0.storage) = true
      · have hQiff := (all_eq_head_iff CsMat.storage m0 rest).mp hQ
        have heval : same_storage_fast_stack (m0 :: rest) =
            .ok ((((m0 :: rest).map CsMat.outerVecs).flatten).foldl
              append_outer_csvec (CsMat.empty m0.storage m0.innerDims)) := by
          simp only [same_storage_fast_stack, hP, hQ, Bool.not_true,
            Bool.false_eq_true, if_false, foldl_outerVecs_flatten]
        exact ⟨iff_of_false (by simp [heval]) (by simp),
          iff_of_false (by simp [heval]) (fun h => h.2 hPiff),
          iff_of_false (by simp [heval]) (fun h => h.2.2 hQiff),
          iff_of_true ⟨_, heval⟩ ⟨by simp, hPiff, hQiff⟩⟩
      · have hnQ : ¬ ∀ x ∈ m0 :: rest, ∀ y ∈ m0 :: rest,
            x.storage = y.storage := fun hc =>
          hQ ((all_eq_head_iff CsMat.storage m0 rest).mpr hc)
        have heval : same_storage_fast_stack (m0 :: rest) =
            .error .IncompatibleStorages := by
          simp only [same_storage_fast_stack, hP, Bool.not_true,
            Bool.false_eq_true, if_false]
          simp only [Bool.not_eq_true] at hQ
          simp [hQ]
        refine ⟨iff_of_false (by simp [heval]) (by simp),
          iff_of_false (by simp [heval]) (fun h => h.2 hPiff),
          iff_of_true heval ⟨by simp, hPiff, hnQ⟩,
          iff_of_false ?_ (fun h => hnQ h.2.2)⟩
        rintro ⟨m, hm⟩
        rw [heval] at hm
        exact absurd hm (by simp)
    · have hnP : ¬ ∀ x ∈ m0 :: rest, ∀ y ∈ m0 :: rest,
          x.innerDims = y.innerDims := fun hc =>
        hP ((all_eq_head_iff CsMat.innerDims m0 rest).mpr hc)
      have heval : same_storage_fast_stack (m0 :: rest) =
          .error .IncompatibleDimensions := by
        simp only [same_storage_fast_stack]
        simp only [Bool.not_eq_true] at hP
        simp [hP]
      refine ⟨iff_of_false (by simp [heval]) (by simp),
        iff_of_true heval ⟨by simp, hnP⟩,
        iff_of_false (by simp [heval]) (fun h => hnP h.2.1),
        iff_of_false ?_ (fun h => hnP h.2.1)⟩
      rintro ⟨m, hm⟩
      rw [heval] at hm
      exact absurd hm (by simp)

/-! ## Conversions and oriented stacking -/

theorem ncols_eq_innerDims_of_csr (m : CsMat) (h : m.storage = CSR) :
    m.ncols = m.innerDims := by
  simp [CsMat.innerDims, h]

theorem toCsr_eq_self (m : CsMat) (h : m.storage = CSR) : m.toCsr = m := by
  simp [CsMat.toCsr, h]

theorem toCsr_storage (m : CsMat) : m.toCsr.storage = CSR := by
  cases hs : m.storage with
  | CSR => rw [toCsr_eq_self m hs, hs]
  | CSC =>
    simp only [CsMat.toCsr, hs]
    rw [(foldl_append_spec _ _ (empty_stackInv CSR m.ncols)).1, empty_storage]

theorem toCsr_innerDims (m : CsMat) : m.toCsr.innerDims = m.ncols := by
  cases hs : m.storage with
  | CSR => rw [toCsr_eq_self m hs, CsMat.innerDims, hs]
  | CSC =>
    simp only [CsMat.toCsr, hs]
    rw [(foldl_append_spec _ _ (empty_stackInv CSR m.ncols)).2.1, empty_innerDims]

theorem toCsr_ncols (m : CsMat) : m.toCsr.ncols = m.ncols := by
  rw [ncols_eq_innerDims_of_csr _ (toCsr_storage m), toCsr_innerDims]

/-- Successful run of `vstack`: for a non-empty list of matrices of common
column count `d`, the result is the fold, over the empty row-major matrix of
inner dimension `d`, of the outer vectors of the row-major forms of the
inputs (on the fast path the inputs are already row-major and are their own
row-major forms). -/
theorem vstack_ok (m0 : CsMat) (rest : List CsMat) (d : Nat)
    (hcols : ∀ x ∈ m0 :: rest, x.ncols = d) :
    vstack (m0 :: rest) =
      .ok ((((m0 :: rest).map fun x => x.toCsr.outerVecs).flatten).foldl
        append_outer_csvec (CsMat.empty CSR d)) := by
  by_cases hall : ((m0 :: rest).all fun x => x.storage == CSR) = true
  · have hstor : ∀ x ∈ m0 :: rest, x.storage = CSR := by
      simpa only [List.all_eq_true, beq_iff_eq] using hall
    have h0 : m0.storage = CSR := hstor m0 (List.mem_cons_self _ _)
    have hinner : ∀ x ∈ m0 :: rest, x.innerDims = m0.innerDims := by
      intro x hx
      rw [← ncols_eq_innerDims_of_csr x (hstor x hx),
        ← ncols_eq_innerDims_of_csr m0 h0, hcols x hx,
        hcols m0 (List.mem_cons_self _ _)]
    have hstor' : ∀ x ∈ m0 :: rest, x.storage = m0.storage := by
      intro x hx
      rw [hstor x hx, h0]
    rw [vstack, if_pos hall, ssfs_ok m0 rest hinner hstor', h0,
      ← ncols_eq_innerDims_of_csr m0 h0, hcols m0 (List.mem_cons_self _ _)]
    have hmap : (m0 :: rest).map CsMat.outerVecs =
        (m0 :: rest).map fun x => x.toCsr.outerVecs := by
      apply List.map_congr_left
      intro x hx
      rw [toCsr_eq_self x (hstor x hx)]
    rw [hmap]
  · rw [vstack, if_neg hall]
    have hinner : ∀ x ∈ (m0 :: rest).map CsMat.toCsr,
        x.innerDims = m0.toCsr.innerDims := by
      intro x hx
      obtain ⟨y, hy, rfl⟩ := List.mem_map.mp hx
      rw [toCsr_innerDims, toCsr_innerDims, hcols y hy,
        hcols m0 (List.mem_cons_self _ _)]
    have hstor' : ∀ x ∈ (m0 :: rest).map CsMat.toCsr,
        x.storage = m0.toCsr.storage := by
      intro x hx
      obtain ⟨y, hy, rfl⟩ := List.mem_map.mp hx
      rw [toCsr_storage, toCsr_storage]
    have hmm : (m0 :: rest).map CsMat.toCsr =
        m0.toCsr :: rest.map CsMat.toCsr := by simp
    rw [hmm] at hinner hstor' ⊢
    rw [ssfs_ok _ _ hinner hstor', toCsr_storage, toCsr_innerDims,
      hcols m0 (List.mem_cons_self _ _), ← hmm, List.map_map]
    rfl

/-- C6: for matrices `A`, `B`, `C` of equal column counts, stacking `A` and
`B` vertically and then stacking the result with `C` yields the same matrix
as stacking `A`, `B`, `C` in one call. -/
theorem vstack_assoc (A B C : CsMat) (h1 : A.ncols = B.ncols)
    (h2 : B.ncols = C.ncols) :
    (vstack [A, B] >>= fun r => vstack [r, C]) = vstack [A, B, C] := by
  have hAB := vstack_ok A [B] A.ncols (by
    intro x hx
    simp only [List.mem_cons, List.not_mem_nil, or_false] at hx
    rcases hx with rfl | rfl
    · rfl
    · exact h1.symm)
  obtain ⟨hs1, hi1, _, hv1, _⟩ := foldl_append_spec
    ((([A, B]).map fun x => x.toCsr.outerVecs).flatten)
    (CsMat.empty CSR A.ncols) (empty_stackInv _ _)
  set R1 := ((([A, B]).map fun x => x.toCsr.outerVecs).flatten).foldl
    append_outer_csvec (CsMat.empty CSR A.ncols) with hR1
  rw [empty_storage] at hs1
  rw [empty_innerDims] at hi1
  rw [empty_outerVecs, List.nil_append] at hv1
  have hR1cols : R1.ncols = A.ncols := by
    rw [ncols_eq_innerDims_of_csr R1 hs1, hi1]
  have hRC := vstack_ok R1 [C] A.ncols (by
    intro x hx
    simp only [List.mem_cons, List.not_mem_nil, or_false] at hx
    rcases hx with rfl | rfl
    · exact hR1cols
    · exact (h1.trans h2).symm)
  have hABC := vstack_ok A [B, C] A.ncols (by
    intro x hx
    simp only [List.mem_cons, List.not_mem_nil, or_false] at hx
    rcases hx with rfl | rfl | rfl
    · rfl
    · exact h1.symm
    · exact (h1.trans h2).symm)
  rw [hAB, hABC]
  show vstack [R1, C] = _
  rw [hRC]
  congr 1
  congr 1
  simp only [List.map_cons, List.map_nil, List.flatten_cons, List.flatten_nil,
    List.append_nil] at hv1 ⊢
  rw [toCsr_eq_self R1 hs1, hv1, List.append_assoc]

theorem vstack_assoc_witness :
    ((⟨CSC, 2, 2, [0, 1, 2], [0, 1], [5, 6]⟩ : CsMat).ncols =
        (⟨CSR, 1, 2, [0, 1], [0], [7]⟩ : CsMat).ncols ∧
      (⟨CSR, 1, 2, [0, 1], [0], [7]⟩ : CsMat).ncols =
        (⟨CSR, 1, 2, [0, 1], [1], [9]⟩ : CsMat).ncols) ∧
    (vstack [⟨CSC, 2, 2, [0, 1, 2], [0, 1], [5, 6]⟩,
        ⟨CSR, 1, 2, [0, 1], [0], [7]⟩] >>= fun r =>
      vstack [r, ⟨CSR, 1, 2, [0, 1], [1], [9]⟩]) =
    vstack [⟨CSC, 2, 2, [0, 1, 2], [0, 1], [5, 6]⟩,
      ⟨CSR, 1, 2, [0, 1], [0], [7]⟩, ⟨CSR, 1, 2, [0, 1], [1], [9]⟩] :=
  ⟨⟨rfl, rfl⟩, vstack_assoc _ _ _ rfl rfl⟩

/-! ## Dense-to-sparse conversion -/

theorem cumSums_concat (acc : Nat) (l : List Nat) (x : Nat) :
    cumSums acc (l ++ [x]) = cumSums acc l ++ [acc + l.sum + x] := by
  induction l generalizing acc with
  | nil => simp [cumSums]
  | cons c cs ih =>
    rw [List.cons_append]
    show acc :: cumSums (acc + c) (cs ++ [x]) =
      acc :: cumSums (acc + c) cs ++ [acc + (c :: cs).sum + x]
    rw [ih (acc + c), List.sum_cons]
    congr 3
    omega

theorem getLastD_cumSums (acc : Nat) (l : List Nat) (d : Nat) :
    (cumSums acc l).getLastD d = acc + l.sum := by
  induction l generalizing acc d with
  | nil => simp [cumSums]
  | cons c cs ih =>
    simp only [cumSums, List.getLastD_cons]
    rw [ih (acc + c) acc, List.sum_cons]
    omega

/-- Folding `append_outer_csvec` over the empty row-major matrix yields
exactly the arrays that `csr_from_dense` assembles: the cumulative-count
outer pointer and the concatenated index and value lists. -/
theorem foldl_append_record (d : Nat) (vecs : List (List (Nat × Int))) :
    vecs.foldl append_outer_csvec (CsMat.empty CSR d) =
      ⟨CSR, vecs.length, d, cumSums 0 (vecs.map List.length),
        (vecs.map fun v => v.map Prod.fst).flatten,
        (vecs.map fun v => v.map Prod.snd).flatten⟩ := by
  induction vecs using List.reverseRecOn with
  | nil => rfl
  | append_singleton vs v ih =>
    rw [List.foldl_append, List.foldl_cons, List.foldl_nil, ih]
    simp only [append_outer_csvec, List.map_append, List.flatten_append,
      List.map_cons, List.map_nil, List.flatten_cons, List.flatten_nil,
      List.length_append, List.length_cons, List.length_nil, cumSums_concat,
      getLastD_cumSums, List.append_nil]

theorem csr_from_dense_eq_foldl (m : List (List Int)) (ε : Int) :
    csr_from_dense m ε =
      ((m.map fun row => (enumFrom 0 row).filter fun ci =>
          (if 0 < ε then ε else 0) < |ci.2|).foldl append_outer_csvec
        (CsMat.empty CSR (m.headD []).length)) := by
  rw [foldl_append_record]
  simp only [csr_from_dense, List.length_map]

theorem outerVecs_csr_from_dense (m : List (List Int)) (ε : Int) :
    (csr_from_dense m ε).outerVecs =
      m.map fun row => (enumFrom 0 row).filter fun ci =>
        (if 0 < ε then ε else 0) < |ci.2| := by
  rw [csr_from_dense_eq_foldl]
  obtain ⟨_, _, _, h4, _⟩ := foldl_append_spec _ _
    (empty_stackInv CSR (m.headD []).length)
  rw [h4, empty_outerVecs, List.nil_append]

theorem csr_from_dense_storage (m : List (List Int)) (ε : Int) :
    (csr_from_dense m ε).storage = CSR := rfl

theorem mem_enumFrom {α : Type} (l : List α) (k : Nat) (p : Nat × α)
    (hp : p ∈ enumFrom k l) : k ≤ p.1 := by
  induction l generalizing k with
  | nil => simp [enumFrom] at hp
  | cons x xs ih =>
    rcases List.mem_cons.mp hp with rfl | hp
    · exact Nat.le_refl _
    · exact Nat.le_of_succ_le (ih (k + 1) hp)

theorem pairwise_enumFrom {α : Type} (k : Nat) (l : List α) :
    (enumFrom k l).Pairwise fun p q => p.1 < q.1 := by
  induction l generalizing k with
  | nil => exact List.Pairwise.nil
  | cons x xs ih =>
    refine List.Pairwise.cons ?_ (ih (k + 1))
    intro q hq
    exact Nat.lt_of_succ_le (mem_enumFrom xs (k + 1) q hq)

/-- Searching a filtered enumeration for a position: the search succeeds
exactly when the position is in range and its entry passes the filter. -/
theorem find_filter_enumFrom (pred : Nat × Int → Bool) (row : List Int)
    (k j : Nat) :
    (((enumFrom k row).filter pred).find? fun p => p.1 == j) =
      if k ≤ j ∧ j < k + row.length then
        (if pred (j, row.getD (j - k) 0) = true then
          some (j, row.getD (j - k) 0) else none)
      else none := by
  induction row generalizing k with
  | nil =>
    rw [if_neg (by intro h; simp at h; omega)]
    rfl
  | cons x xs ih =>
    show ((((k, x) :: enumFrom (k + 1) xs).filter pred).find? fun p => p.1 == j) = _
    by_cases hkj : k = j
    · subst hkj
      rw [if_pos (by constructor <;> [exact Nat.le_refl k; simp])]
      have hget : (x :: xs).getD (k - k) 0 = x := by
        rw [Nat.sub_self]; rfl
      rw [hget]
      by_cases hp : pred (k, x) = true
      · rw [List.filter_cons_of_pos hp, if_pos hp]
        exact List.find?_cons_of_pos _ (by simp)
      · rw [List.filter_cons_of_neg (by simp [hp]), if_neg hp, ih (k + 1)]
        rw [if_neg (by omega)]
    · have hbeq : ¬ (((k, x) : Nat × Int).1 == j) = true := by
        simp [hkj]
      have hstep : ((((k, x) :: enumFrom (k + 1) xs).filter pred).find?
          fun p => p.1 == j) =
          (((enumFrom (k + 1) xs).filter pred).find? fun p => p.1 == j) := by
        by_cases hp : pred (k, x) = true
        · rw [List.filter_cons_of_pos hp]
          exact List.find?_cons_of_neg _ hbeq
        · rw [List.filter_cons_of_neg (by simp [hp])]
      rw [hstep, ih (k + 1)]
      by_cases hcond : k ≤ j ∧ j < k + (x :: xs).length
      · have hj : k + 1 ≤ j := by omega
        have hj2 : j < k + 1 + xs.length := by
          simp only [List.length_cons] at hcond; omega
        rw [if_pos ⟨hj, hj2⟩, if_pos hcond]
        have hget : (x :: xs).getD (j - k) 0 = xs.getD (j - (k + 1)) 0 := by
          have h1 : j - k = (j - (k + 1)) + 1 := by omega
          rw [h1, List.getD_cons_succ]
        rw [hget]
      · rw [if_neg (by simp only [List.length_cons] at hcond; omega),
          if_neg hcond]

theorem clamp_eq_max (ε : Int) : (if 0 < ε then ε else 0) = max ε 0 := by
  rcases lt_or_le 0 ε with h | h
  · rw [if_pos h, max_eq_left h.le]
  · rw [if_neg (not_lt.mpr h), max_eq_right h]

/-- C2: `csr_from_dense` produces a row-major matrix of the dense view's
shape whose stored entries are exactly the positions whose absolute value
strictly exceeds `max ε 0`, each carrying the dense value, and a
non-positive `ε` behaves identically to `ε = 0`. -/
theorem csr_from_dense_correct (m : List (List Int)) (ε : Int)
    (hrect : ∀ row ∈ m, row.length = (m.headD []).length) :
    (csr_from_dense m ε).storage = CSR ∧
    (csr_from_dense m ε).nrows = m.length ∧
    (csr_from_dense m ε).ncols = (m.headD []).length ∧
    (∀ i j, i < m.length → j < (m.headD []).length →
      (csr_from_dense m ε).getEntryOpt i j =
        if max ε 0 < |(m.getD i []).getD j 0| then
          some ((m.getD i []).getD j 0)
        else none) ∧
    (∀ e : Int, e ≤ 0 → csr_from_dense m e = csr_from_dense m 0) := by
  refine ⟨rfl, rfl, rfl, ?_, ?_⟩
  · intro i j hi hj
    rw [CsMat.getEntryOpt, csr_from_dense_storage]
    show (((csr_from_dense m ε).outerVecs.getD i []).find?
      fun p => p.1 == j).map Prod.snd = _
    rw [outerVecs_csr_from_dense]
    have hmap : ((m.map fun row => (enumFrom 0 row).filter fun ci =>
        (if 0 < ε then ε else 0) < |ci.2|).getD i []) =
        (enumFrom 0 (m.getD i [])).filter fun ci =>
          (if 0 < ε then ε else 0) < |ci.2| := by
      rw [List.getD_eq_getElem _ _ (by simpa using hi), List.getElem_map,
        List.getD_eq_getElem _ _ hi]
    rw [hmap, find_filter_enumFrom]
    have hrow : (m.getD i []).length = (m.headD []).length := by
      apply hrect
      rw [List.getD_eq_getElem _ _ hi]
      exact List.getElem_mem hi
    rw [if_pos (by omega), Nat.sub_zero]
    by_cases hv : max ε 0 < |(m.getD i []).getD j 0|
    · rw [if_pos (by simp [← clamp_eq_max ε] at hv; simp [hv]), if_pos hv]
      rfl
    · rw [if_neg (by rw [clamp_eq_max]; simpa using hv), if_neg hv]
      rfl
  · intro e he
    simp only [csr_from_dense, if_neg (by omega : ¬ (0:Int) < e),
      if_neg (lt_irrefl (0 : Int))]

theorem csr_from_dense_correct_witness :
    (∀ row ∈ [[2, 0], [0, -3], [1, 1]], List.length row =
      (([[2, 0], [0, -3], [1, 1]] : List (List Int)).headD []).length) ∧
    ((csr_from_dense [[2, 0], [0, -3], [1, 1]] (-1)).storage = CSR ∧
     (csr_from_dense [[2, 0], [0, -3], [1, 1]] (-1)).nrows =
       ([[2, 0], [0, -3], [1, 1]] : List (List Int)).length ∧
     (csr_from_dense [[2, 0], [0, -3], [1, 1]] (-1)).ncols =
       (([[2, 0], [0, -3], [1, 1]] : List (List Int)).headD []).length ∧
     (∀ i j, i < ([[2, 0], [0, -3], [1, 1]] : List (List Int)).length →
       j < (([[2, 0], [0, -3], [1, 1]] : List (List Int)).headD []).length →
       (csr_from_dense [[2, 0], [0, -3], [1, 1]] (-1)).getEntryOpt i j =
         if max (-1) 0 <
             |(([[2, 0], [0, -3], [1, 1]] : List (List Int)).getD i []).getD j 0|
         then some ((([[2, 0], [0, -3], [1, 1]] :
           List (List Int)).getD i []).getD j 0)
         else none) ∧
     (∀ e : Int, e ≤ 0 → csr_from_dense [[2, 0], [0, -3], [1, 1]] e =
       csr_from_dense [[2, 0], [0, -3], [1, 1]] 0)) :=
  ⟨by decide, csr_from_dense_correct _ _ (by decide)⟩

/-- C7: within each row of a `csr_from_dense` result, the stored column
indices are strictly increasing — the compressed-format sortedness
invariant holds without an explicit sort. -/
theorem csr_from_dense_sorted (m : List (List Int)) (ε : Int) :
    ∀ vec ∈ (csr_from_dense m ε).outerVecs,
      (vec.map Prod.fst).Pairwise fun a b => a < b := by
  intro vec hvec
  rw [outerVecs_csr_from_dense] at hvec
  obtain ⟨row, _, rfl⟩ := List.mem_map.mp hvec
  refine List.pairwise_map.mpr ?_
  exact (pairwise_enumFrom 0 row).sublist (List.filter_sublist _)

/-! ## Block-matrix assembly -/

theorem ssfs_cons_ne_empty (m0 : CsMat) (rest : List CsMat) :
    same_storage_fast_stack (m0 :: rest) ≠ .error .EmptyStackingList := by
  intro h
  simp only [same_storage_fast_stack] at h
  split_ifs at h <;> simp at h

theorem hstack_ne_empty (mats : List CsMat) (h : mats ≠ []) :
    hstack mats ≠ .error .EmptyStackingList := by
  match mats, h with
  | m0 :: rest, _ =>
    rw [hstack]
    split
    · exact ssfs_cons_ne_empty m0 rest
    · show same_storage_fast_stack ((m0 :: rest).map CsMat.toCsc) ≠ _
      rw [List.map_cons]
      exact ssfs_cons_ne_empty _ _

theorem vstack_ne_empty (mats : List CsMat) (h : mats ≠ []) :
    vstack mats ≠ .error .EmptyStackingList := by
  match mats, h with
  | m0 :: rest, _ =>
    rw [vstack]
    split
    · exact ssfs_cons_ne_empty m0 rest
    · show same_storage_fast_stack ((m0 :: rest).map CsMat.toCsr) ≠ _
      rw [List.map_cons]
      exact ssfs_cons_ne_empty _ _

theorem enumFrom_length {α : Type} (k : Nat) (l : List α) :
    (enumFrom k l).length = l.length := by
  induction l generalizing k with
  | nil => rfl
  | cons x xs ih => simp [enumFrom, ih]

theorem mem_enumFrom_snd {α : Type} (k : Nat) (l : List α) (p : Nat × α)
    (hp : p ∈ enumFrom k l) : p.2 ∈ l := by
  induction l generalizing k with
  | nil => simp [enumFrom] at hp
  | cons x xs ih =>
    rcases List.mem_cons.mp hp with rfl | hp
    · exact List.mem_cons_self _ _
    · exact List.mem_cons_of_mem _ (ih (k + 1) hp)

theorem buildBands_ne_error (rpr cpc : List Nat)
    (l : List (Nat × List (Option CsMat))) (e : SprsError)
    (h : ∀ p ∈ l, hstack ((enumFrom 0 p.2).map fun jm =>
      jm.2.getD (CsMat.zero (rpr.getD p.1 0) (cpc.getD jm.1 0))) ≠ .error e) :
    buildBands rpr cpc l ≠ .error e := by
  induction l with
  | nil => simp [buildBands]
  | cons p rest ih =>
    obtain ⟨i, row⟩ := p
    intro hc
    simp only [buildBands] at hc
    rcases hres : hstack ((enumFrom 0 row).map fun jm =>
        jm.2.getD (CsMat.zero (rpr.getD i 0) (cpc.getD jm.1 0)))
      with e' | band
    · rw [hres] at hc
      simp only [Except.error.injEq] at hc
      exact h (i, row) (List.mem_cons_self _ _) (by rw [hres, hc])
    · rw [hres] at hc
      rcases hres2 : buildBands rpr cpc rest with e' | bands
      · rw [hres2] at hc
        simp only [Except.error.injEq] at hc
        subst hc
        exact ih (fun q hq => h q (List.mem_cons_of_mem _ hq)) hres2
      · rw [hres2] at hc
        exact absurd hc (by simp)

theorem bmat_empty_grid : bmat [] = .error .EmptyStackingList := rfl

theorem bmat_empty_head (grid : List (List (Option CsMat))) (h0 : grid ≠ [])
    (h1 : grid.headD [] = []) : bmat grid = .error .EmptyStackingList := by
  match grid, h0 with
  | r0 :: rest, _ =>
    simp only [List.headD_cons] at h1
    subst h1
    simp [bmat]

theorem bmat_eval_ID (grid : List (List (Option CsMat))) (h0 : grid ≠ [])
    (h1 : grid.headD [] ≠ [])
    (hrect : ¬ ∀ row ∈ grid, row.length = (grid.headD []).length) :
    bmat grid = .error .IncompatibleDimensions := by
  have hc2 : ¬ (grid.all fun x => x.length == (grid.headD []).length) = true := by
    intro hc
    exact hrect fun row hrow => beq_iff_eq.mp (List.all_eq_true.mp hc row hrow)
  simp only [bmat, if_neg (fun hc => h0 (List.length_eq_zero.mp hc)),
    if_neg (fun hc => h1 (List.length_eq_zero.mp hc))]
  rw [if_pos (by rw [(by simpa using hc2 : (grid.all fun x => x.length == (grid.headD []).length) = false)]; rfl)]

theorem bmat_eval_EBR (grid : List (List (Option CsMat))) (h0 : grid ≠ [])
    (h1 : grid.headD [] ≠ [])
    (hrect : ∀ row ∈ grid, row.length = (grid.headD []).length)
    (hrow : ∃ row ∈ grid, ∀ c ∈ row, c = none) :
    bmat grid = .error .EmptyBmatRow := by
  have hc2 : (grid.all fun x => x.length == (grid.headD []).length) = true :=
    List.all_eq_true.mpr fun row hr => beq_iff_eq.mpr (hrect row hr)
  have hc3 : (grid.any fun x => x.all fun y => y.isNone) = true := by
    obtain ⟨row, hr, hall⟩ := hrow
    refine List.any_eq_true.mpr ⟨row, hr, List.all_eq_true.mpr fun c hc => ?_⟩
    rw [hall c hc]; rfl
  simp only [bmat, if_neg (fun hc => h0 (List.length_eq_zero.mp hc)),
    if_neg (fun hc => h1 (List.length_eq_zero.mp hc))]
  rw [if_neg (by rw [hc2]; simp), if_pos hc3]

theorem bmat_eval_EBC (grid : List (List (Option CsMat))) (h0 : grid ≠ [])
    (h1 : grid.headD [] ≠ [])
    (hrect : ∀ row ∈ grid, row.length = (grid.headD []).length)
    (hnorow : ¬ ∃ row ∈ grid, ∀ c ∈ row, c = none)
    (hcol : ∃ j < (grid.headD []).length, ∀ row ∈ grid, row.getD j none = none) :
    bmat grid = .error .EmptyBmatCol := by
  have hc2 : (grid.all fun x => x.length == (grid.headD []).length) = true :=
    List.all_eq_true.mpr fun row hr => beq_iff_eq.mpr (hrect row hr)
  have hc3 : ¬ (grid.any fun x => x.all fun y => y.isNone) = true := by
    intro hc
    obtain ⟨row, hr, hall⟩ := List.any_eq_true.mp hc
    exact hnorow ⟨row, hr, fun c hcc =>
      Option.isNone_iff_eq_none.mp (List.all_eq_true.mp hall c hcc)⟩
  have hc4 : ((List.range (grid.headD []).length).any fun j =>
      grid.all fun x => (x.getD j none).isNone) = true := by
    obtain ⟨j, hj, hall⟩ := hcol
    refine List.any_eq_true.mpr ⟨j, List.mem_range.mpr hj,
      List.all_eq_true.mpr fun row hr => ?_⟩
    rw [hall row hr]; rfl
  simp only [bmat, if_neg (fun hc => h0 (List.length_eq_zero.mp hc)),
    if_neg (fun hc => h1 (List.length_eq_zero.mp hc))]
  rw [if_neg (by rw [hc2]; simp), if_neg hc3, if_pos hc4]

theorem bmat_eval_pass (grid : List (List (Option CsMat))) (h0 : grid ≠ [])
    (h1 : grid.headD [] ≠ [])
    (hrect : ∀ row ∈ grid, row.length = (grid.headD []).length)
    (hnorow : ¬ ∃ row ∈ grid, ∀ c ∈ row, c = none)
    (hnocol : ¬ ∃ j < (grid.headD []).length,
      ∀ row ∈ grid, row.getD j none = none) :
    bmat grid =
      (buildBands (rowsPerRow grid) (colsPerCol grid)
        (enumFrom 0 grid) >>= vstack) := by
  have hc2 : (grid.all fun x => x.length == (grid.headD []).length) = true :=
    List.all_eq_true.mpr fun row hr => beq_iff_eq.mpr (hrect row hr)
  have hc3 : ¬ (grid.any fun x => x.all fun y => y.isNone) = true := by
    intro hc
    obtain ⟨row, hr, hall⟩ := List.any_eq_true.mp hc
    exact hnorow ⟨row, hr, fun c hcc =>
      Option.isNone_iff_eq_none.mp (List.all_eq_true.mp hall c hcc)⟩
  have hc4 : ¬ ((List.range (grid.headD []).length).any fun j =>
      grid.all fun x => (x.getD j none).isNone) = true := by
    intro hc
    obtain ⟨j, hj, hall⟩ := List.any_eq_true.mp hc
    exact hnocol ⟨j, List.mem_range.mp hj, fun row hr =>
      Option.isNone_iff_eq_none.mp (List.all_eq_true.mp hall row hr)⟩
  simp only [bmat, if_neg (fun hc => h0 (List.length_eq_zero.mp hc)),
    if_neg (fun hc => h1 (List.length_eq_zero.mp hc))]
  rw [if_neg (by rw [hc2]; simp), if_neg hc3, if_neg hc4]
  cases buildBands (rowsPerRow grid) (colsPerCol grid) (enumFrom 0 grid) with
  | error e => rfl
  | ok bands => rfl

theorem buildBands_length (rpr cpc : List Nat)
    (l : List (Nat × List (Option CsMat))) (bands : List CsMat)
    (h : buildBands rpr cpc l = .ok bands) : bands.length = l.length := by
  induction l generalizing bands with
  | nil =>
    simp only [buildBands, Except.ok.injEq] at h
    subst h; rfl
  | cons p rest ih =>
    obtain ⟨i, row⟩ := p
    simp only [buildBands] at h
    rcases hres : hstack ((enumFrom 0 row).map fun jm =>
        jm.2.getD (CsMat.zero (rpr.getD i 0) (cpc.getD jm.1 0)))
      with e' | band
    · rw [hres] at h; exact absurd h (by simp)
    · rw [hres] at h
      rcases hres2 : buildBands rpr cpc rest with e' | bands'
      · rw [hres2] at h; exact absurd h (by simp)
      · rw [hres2] at h
        simp only [Except.ok.injEq] at h
        subst h
        simp [ih bands' hres2]

/-- C3: `bmat` fails with `EmptyStackingList` exactly when the grid has zero
block-rows or the first block-row has zero cells; when those checks pass it
fails with `IncompatibleDimensions` when some block-row's cell count differs
from the first's, with `EmptyBmatRow` when some block-row is entirely
absent, and with `EmptyBmatCol` when some block-column is entirely absent;
each failure returns an error value (so no matrix is produced). -/
theorem bmat_error_modes (grid : List (List (Option CsMat))) :
    (bmat grid = .error .EmptyStackingList ↔ grid = [] ∨ grid.headD [] = []) ∧
    (grid ≠ [] → grid.headD [] ≠ [] →
      (¬ ∀ row ∈ grid, row.length = (grid.headD []).length) →
      bmat grid = .error .IncompatibleDimensions) ∧
    (grid ≠ [] → grid.headD [] ≠ [] →
      (∀ row ∈ grid, row.length = (grid.headD []).length) →
      (∃ row ∈ grid, ∀ c ∈ row, c = none) →
      bmat grid = .error .EmptyBmatRow) ∧
    (grid ≠ [] → grid.headD [] ≠ [] →
      (∀ row ∈ grid, row.length = (grid.headD []).length) →
      (¬ ∃ row ∈ grid, ∀ c ∈ row, c = none) →
      (∃ j < (grid.headD []).length, ∀ row ∈ grid, row.getD j none = none) →
      bmat grid = .error .EmptyBmatCol) := by
  refine ⟨⟨?_, ?_⟩, bmat_eval_ID grid, bmat_eval_EBR grid, bmat_eval_EBC grid⟩
  · intro h
    by_contra hno
    push_neg at hno
    obtain ⟨hg, hh⟩ := hno
    by_cases hrect : ∀ row ∈ grid, row.length = (grid.headD []).length
    · by_cases hrow : ∃ row ∈ grid, ∀ c ∈ row, c = none
      · rw [bmat_eval_EBR grid hg hh hrect hrow] at h
        exact absurd h (by simp)
      · by_cases hcol : ∃ j < (grid.headD []).length,
            ∀ row ∈ grid, row.getD j none = none
        · rw [bmat_eval_EBC grid hg hh hrect hrow hcol] at h
          exact absurd h (by simp)
        · rw [bmat_eval_pass grid hg hh hrect hrow hcol] at h
          rcases hbb : buildBands (rowsPerRow grid) (colsPerCol grid)
              (enumFrom 0 grid) with e | bands
          · rw [hbb] at h
            have hb1 : (Except.error e >>= vstack : Except SprsError CsMat) =
                Except.error e := rfl
            rw [hb1] at h
            have he : e = .EmptyStackingList := by simpa using h
            subst he
            refine buildBands_ne_error (rowsPerRow grid) (colsPerCol grid)
              (enumFrom 0 grid) .EmptyStackingList ?_ hbb
            intro p hp
            apply hstack_ne_empty
            intro hnil
            have hlen : p.2.length = 0 := by
              have := congrArg List.length hnil
              simpa [enumFrom_length] using this
            have hpg : p.2 ∈ grid := mem_enumFrom_snd 0 grid p hp
            have := hrect p.2 hpg
            rw [hlen] at this
            exact hh (List.length_eq_zero.mp this.symm)
          · rw [hbb] at h
            have hb2 : (Except.ok bands >>= vstack : Except SprsError CsMat) =
                vstack bands := rfl
            rw [hb2] at h
            have hvs : vstack bands = .error .EmptyStackingList := h
            have hblen : bands.length = grid.length := by
              rw [buildBands_length _ _ _ _ hbb, enumFrom_length]
            refine vstack_ne_empty bands ?_ hvs
            intro hnil
            rw [hnil] at hblen
            exact hg (List.length_eq_zero.mp hblen.symm)
    · rw [bmat_eval_ID grid hg hh hrect] at h
      exact absurd h (by simp)
  · rintro (rfl | hh)
    · exact bmat_empty_grid
    · by_cases hg : grid = []
      · subst hg; exact bmat_empty_grid
      · exact bmat_empty_head grid hg hh

theorem bmat_error_modes_witness :
    bmat [[none, none],
      [some ⟨CSR, 1, 1, [0, 1], [0], [4]⟩,
        some ⟨CSR, 1, 1, [0, 1], [0], [4]⟩]] = .error .EmptyBmatRow :=
  (bmat_error_modes _).2.2.1 (by decide) (by decide) (by decide) (by decide)

/-! ## Entry-level semantics of conversions and single-block assembly -/

/-- The format invariant that every stored inner index lies within the inner
dimension (part of the Compressed Matrix data-model invariant of the spec). -/
def InnerBounded (m : CsMat) : Prop :=
  ∀ vec ∈ m.outerVecs, ∀ p ∈ vec, p.1 < m.innerDims

theorem nrows_eq_outerDims_of_csr (m : CsMat) (h : m.storage = CSR) :
    m.nrows = m.outerDims := by
  simp [CsMat.outerDims, h]

theorem nrows_eq_innerDims_of_csc (m : CsMat) (h : m.storage = CSC) :
    m.nrows = m.innerDims := by
  simp [CsMat.innerDims, h]

theorem ncols_eq_outerDims_of_csc (m : CsMat) (h : m.storage = CSC) :
    m.ncols = m.outerDims := by
  simp [CsMat.outerDims, h]

theorem getEntryOpt_congr (m m' : CsMat) (hs : m.storage = m'.storage)
    (hv : m.outerVecs = m'.outerVecs) (i j : Nat) :
    m.getEntryOpt i j = m'.getEntryOpt i j := by
  cases hs2 : m'.storage <;> rw [hs2] at hs <;>
    simp [CsMat.getEntryOpt, hs, hs2, hv]

theorem innerBounded_congr (m m' : CsMat) (hv : m.outerVecs = m'.outerVecs)
    (hi : m.innerDims = m'.innerDims) (hb : InnerBounded m) :
    InnerBounded m' := by
  intro vec hvec p hp
  rw [← hi]
  exact hb vec (hv ▸ hvec) p hp

theorem getEntryOpt_none_of_row_ge (m : CsMat) (hs : m.storage = CSR)
    (i j : Nat) (hi : m.nrows ≤ i) : m.getEntryOpt i j = none := by
  simp only [CsMat.getEntryOpt, hs]
  rw [List.getD_eq_default]
  · rfl
  · rw [outerVecs_length, ← nrows_eq_outerDims_of_csr m hs]
    exact hi

theorem getEntryOpt_none_of_col_ge_csc (m : CsMat) (hs : m.storage = CSC)
    (i j : Nat) (hj : m.ncols ≤ j) : m.getEntryOpt i j = none := by
  simp only [CsMat.getEntryOpt, hs]
  rw [List.getD_eq_default]
  · rfl
  · rw [outerVecs_length, ← ncols_eq_outerDims_of_csc m hs]
    exact hj

theorem getEntryOpt_none_of_col_ge (m : CsMat) (hs : m.storage = CSR)
    (hb : InnerBounded m) (i j : Nat) (hj : m.ncols ≤ j) :
    m.getEntryOpt i j = none := by
  simp only [CsMat.getEntryOpt, hs]
  rcases Nat.lt_or_ge i m.outerVecs.length with hi | hi
  · rw [List.getD_eq_getElem _ _ hi]
    rw [List.find?_eq_none.mpr ?_]
    · rfl
    · intro p hp
      have hlt := hb _ (List.getElem_mem hi) p hp
      rw [← ncols_eq_innerDims_of_csr m hs] at hlt
      simp only [beq_iff_eq]
      omega
  · rw [List.getD_eq_default _ _ hi]
    rfl

theorem getEntryOpt_none_of_row_ge_csc (m : CsMat) (hs : m.storage = CSC)
    (hb : InnerBounded m) (i j : Nat) (hi : m.nrows ≤ i) :
    m.getEntryOpt i j = none := by
  simp only [CsMat.getEntryOpt, hs]
  rcases Nat.lt_or_ge j m.outerVecs.length with hj | hj
  · rw [List.getD_eq_getElem _ _ hj]
    rw [List.find?_eq_none.mpr ?_]
    · rfl
    · intro p hp
      have hlt := hb _ (List.getElem_mem hj) p hp
      rw [← nrows_eq_innerDims_of_csc m hs] at hlt
      simp only [beq_iff_eq]
      omega
  · rw [List.getD_eq_default _ _ hj]
    rfl

theorem gather_fst_lt (g : Nat → Option Int) (k n : Nat) :
    ∀ p ∈ gatherPresent g k n, p.1 < k + n := by
  induction n generalizing k with
  | zero => simp [gatherPresent]
  | succ n ih =>
    intro p hp
    simp only [gatherPresent] at hp
    cases hg : g k with
    | none =>
      rw [hg] at hp
      have := ih (k + 1) p hp
      omega
    | some v =>
      rw [hg] at hp
      rcases List.mem_cons.mp hp with rfl | hp
      · simp
      · have := ih (k + 1) p hp
        omega

theorem find_gather (g : Nat → Option Int) (n k i : Nat) :
    ((gatherPresent g k n).find? fun p => p.1 == i) =
      if k ≤ i ∧ i < k + n then (g i).map fun v => (i, v) else none := by
  induction n generalizing k with
  | zero => rw [if_neg (by omega)]; rfl
  | succ n ih =>
    show ((match g k with
      | none => gatherPresent g (k + 1) n
      | some v => (k, v) :: gatherPresent g (k + 1) n).find?
        fun p : Nat × Int => p.1 == i) = _
    cases hg : g k with
    | none =>
      rw [ih (k + 1)]
      by_cases hik : i = k
      · subst hik
        rw [if_neg (by omega), if_pos (by omega), hg]
        rfl
      · by_cases hc : k ≤ i ∧ i < k + (n + 1)
        · rw [if_pos (by omega), if_pos hc]
        · rw [if_neg (by omega), if_neg hc]
    | some v =>
      by_cases hik : i = k
      · subst hik
        rw [List.find?_cons_of_pos _ (by simp), if_pos (by omega), hg]
        rfl
      · rw [List.find?_cons_of_neg _ (by simp; omega), ih (k + 1)]
        by_cases hc : k ≤ i ∧ i < k + (n + 1)
        · rw [if_pos (by omega), if_pos hc]
        · rw [if_neg (by omega), if_neg hc]

theorem toCsc_eq_self (m : CsMat) (h : m.storage = CSC) : m.toCsc = m := by
  simp [CsMat.toCsc, h]

theorem outerVecs_toCsc_csr (m : CsMat) (hs : m.storage = CSR) :
    m.toCsc.outerVecs = (List.range m.ncols).map fun j =>
      gatherPresent (fun i => m.getEntryOpt i j) 0 m.nrows := by
  simp only [CsMat.toCsc, hs]
  obtain ⟨_, _, _, h4, _⟩ := foldl_append_spec _ _ (empty_stackInv CSC m.nrows)
  rw [h4, empty_outerVecs, List.nil_append]

theorem toCsc_storage (m : CsMat) : m.toCsc.storage = CSC := by
  cases hs : m.storage with
  | CSC => rw [toCsc_eq_self m hs, hs]
  | CSR =>
    simp only [CsMat.toCsc, hs]
    rw [(foldl_append_spec _ _ (empty_stackInv CSC m.nrows)).1, empty_storage]

theorem toCsc_innerDims (m : CsMat) : m.toCsc.innerDims = m.nrows := by
  cases hs : m.storage with
  | CSC => rw [toCsc_eq_self m hs, ← nrows_eq_innerDims_of_csc m hs]
  | CSR =>
    simp only [CsMat.toCsc, hs]
    rw [(foldl_append_spec _ _ (empty_stackInv CSC m.nrows)).2.1,
      empty_innerDims]

theorem toCsc_nrows (m : CsMat) : m.toCsc.nrows = m.nrows := by
  rw [nrows_eq_innerDims_of_csc _ (toCsc_storage m), toCsc_innerDims]

theorem toCsc_outerDims (m : CsMat) : m.toCsc.outerDims = m.ncols := by
  cases hs : m.storage with
  | CSC => rw [toCsc_eq_self m hs, ← ncols_eq_outerDims_of_csc m hs]
  | CSR =>
    simp only [CsMat.toCsc, hs]
    rw [(foldl_append_spec _ _ (empty_stackInv CSC m.nrows)).2.2.1,
      empty_outerDims, Nat.zero_add, List.length_map, List.length_range]

theorem toCsc_ncols (m : CsMat) : m.toCsc.ncols = m.ncols := by
  rw [ncols_eq_outerDims_of_csc _ (toCsc_storage m), toCsc_outerDims]

theorem outerVecs_toCsr_csc (m : CsMat) (hs : m.storage = CSC) :
    m.toCsr.outerVecs = (List.range m.nrows).map fun i =>
      gatherPresent (fun j => m.getEntryOpt i j) 0 m.ncols := by
  simp only [CsMat.toCsr, hs]
  obtain ⟨_, _, _, h4, _⟩ := foldl_append_spec _ _ (empty_stackInv CSR m.ncols)
  rw [h4, empty_outerVecs, List.nil_append]

theorem toCsr_outerDims (m : CsMat) : m.toCsr.outerDims = m.nrows := by
  cases hs : m.storage with
  | CSR => rw [toCsr_eq_self m hs, ← nrows_eq_outerDims_of_csr m hs]
  | CSC =>
    simp only [CsMat.toCsr, hs]
    rw [(foldl_append_spec _ _ (empty_stackInv CSR m.ncols)).2.2.1,
      empty_outerDims, Nat.zero_add, List.length_map, List.length_range]

theorem toCsr_nrows (m : CsMat) : m.toCsr.nrows = m.nrows := by
  rw [nrows_eq_outerDims_of_csr _ (toCsr_storage m), toCsr_outerDims]

theorem innerBounded_toCsc_of_csr (m : CsMat) (hs : m.storage = CSR) :
    InnerBounded m.toCsc := by
  intro vec hvec p hp
  rw [outerVecs_toCsc_csr m hs] at hvec
  obtain ⟨j, _, rfl⟩ := List.mem_map.mp hvec
  have hlt := gather_fst_lt _ 0 m.nrows p hp
  rw [toCsc_innerDims]
  omega

theorem innerBounded_toCsr_of_csc (m : CsMat) (hs : m.storage = CSC) :
    InnerBounded m.toCsr := by
  intro vec hvec p hp
  rw [outerVecs_toCsr_csc m hs] at hvec
  obtain ⟨i, _, rfl⟩ := List.mem_map.mp hvec
  have hlt := gather_fst_lt _ 0 m.ncols p hp
  rw [toCsr_innerDims]
  omega

theorem getEntryOpt_toCsc (m : CsMat) (hb : InnerBounded m) (i j : Nat) :
    m.toCsc.getEntryOpt i j = m.getEntryOpt i j := by
  cases hs : m.storage with
  | CSC => rw [toCsc_eq_self m hs]
  | CSR =>
    have hlhs : m.toCsc.getEntryOpt i j =
        ((m.toCsc.outerVecs.getD j []).find? fun p => p.1 == i).map
          Prod.snd := by
      simp [CsMat.getEntryOpt, toCsc_storage m]
    rw [hlhs, outerVecs_toCsc_csr m hs]
    rcases Nat.lt_or_ge j m.ncols with hj | hj
    · rw [List.getD_eq_getElem _ _ (by simpa using hj), List.getElem_map,
        List.getElem_range, find_gather]
      by_cases hi : i < m.nrows
      · rw [if_pos ⟨Nat.zero_le i, by omega⟩, Option.map_map]
        cases hgi : m.getEntryOpt i j <;> simp [hgi]
      · rw [if_neg (by omega),
          getEntryOpt_none_of_row_ge m hs i j (by omega)]
        rfl
    · rw [List.getD_eq_default _ _ (by simpa using hj),
        getEntryOpt_none_of_col_ge m hs hb i j hj]
      rfl

theorem getEntryOpt_toCsr (m : CsMat) (hb : InnerBounded m) (i j : Nat) :
    m.toCsr.getEntryOpt i j = m.getEntryOpt i j := by
  cases hs : m.storage with
  | CSR => rw [toCsr_eq_self m hs]
  | CSC =>
    have hlhs : m.toCsr.getEntryOpt i j =
        ((m.toCsr.outerVecs.getD i []).find? fun p => p.1 == j).map
          Prod.snd := by
      simp [CsMat.getEntryOpt, toCsr_storage m]
    rw [hlhs, outerVecs_toCsr_csc m hs]
    rcases Nat.lt_or_ge i m.nrows with hi | hi
    · rw [List.getD_eq_getElem _ _ (by simpa using hi), List.getElem_map,
        List.getElem_range, find_gather]
      by_cases hj : j < m.ncols
      · rw [if_pos ⟨Nat.zero_le j, by omega⟩, Option.map_map]
        cases hgi : m.getEntryOpt i j <;> simp [hgi]
      · rw [if_neg (by omega),
          getEntryOpt_none_of_col_ge_csc m hs i j (by omega)]
        rfl
    · rw [List.getD_eq_default _ _ (by simpa using hi),
        getEntryOpt_none_of_row_ge_csc m hs hb i j hi]
      rfl

/-- Fast-stacking a single matrix rebuilds it: the result has the same
storage, dimensions and outer vectors. -/
theorem ssfs_single (x : CsMat) :
    ∃ R, same_storage_fast_stack [x] = .ok R ∧ R.storage = x.storage ∧
      R.innerDims = x.innerDims ∧ R.outerDims = x.outerDims ∧
      R.outerVecs = x.outerVecs := by
  have heq := ssfs_ok x [] (by simp) (by simp)
  obtain ⟨h1, h2, h3, h4, _⟩ := foldl_append_spec
    (([x].map CsMat.outerVecs).flatten) (CsMat.empty x.storage x.innerDims)
    (empty_stackInv _ _)
  refine ⟨_, heq, ?_, ?_, ?_, ?_⟩
  · rw [h1, empty_storage]
  · rw [h2, empty_innerDims]
  · rw [h3, empty_outerDims, Nat.zero_add]
    simp [outerVecs_length]
  · rw [h4, empty_outerVecs, List.nil_append]
    simp

/-- Horizontally stacking a single matrix yields its column-major form (same
shape and entries); index bounds are preserved. -/
theorem hstack_single (a : CsMat) (hb : InnerBounded a) :
    ∃ R, hstack [a] = .ok R ∧ R.storage = CSC ∧ R.nrows = a.nrows ∧
      R.ncols = a.ncols ∧ InnerBounded R ∧
      ∀ i j, R.getEntryOpt i j = a.getEntryOpt i j := by
  obtain ⟨R, hR, hRs, hRi, hRo, hRv⟩ := ssfs_single a.toCsc
  have hall : hstack [a] = same_storage_fast_stack [a.toCsc] := by
    rw [hstack]
    split
    · next hcsc =>
      have : a.storage = CSC := by simpa using hcsc
      rw [toCsc_eq_self a this]
    · rfl
  have hRs' : R.storage = CSC := by rw [hRs, toCsc_storage]
  have hRb : InnerBounded R := by
    refine innerBounded_congr a.toCsc R hRv.symm ?_ ?_
    · rw [hRi]
    · cases hsa : a.storage with
      | CSC => rw [toCsc_eq_self a hsa]; exact hb
      | CSR => exact innerBounded_toCsc_of_csr a hsa
  refine ⟨R, by rw [hall, hR], hRs', ?_, ?_, hRb, ?_⟩
  · rw [nrows_eq_innerDims_of_csc R hRs', hRi, toCsc_innerDims]
  · rw [ncols_eq_outerDims_of_csc R hRs', hRo, toCsc_outerDims]
  · intro i j
    rw [getEntryOpt_congr R a.toCsc hRs hRv i j]
    cases hsa : a.storage with
    | CSC => rw [toCsc_eq_self a hsa]
    | CSR => exact getEntryOpt_toCsc a hb i j

/-- Vertically stacking a single matrix yields its row-major form (same
shape and entries). -/
theorem vstack_single (a : CsMat) (hb : InnerBounded a) :
    ∃ M, vstack [a] = .ok M ∧ M.storage = CSR ∧ M.nrows = a.nrows ∧
      M.ncols = a.ncols ∧
      ∀ i j, M.getEntryOpt i j = a.getEntryOpt i j := by
  obtain ⟨M, hM, hMs, hMi, hMo, hMv⟩ := ssfs_single a.toCsr
  have hall : vstack [a] = same_storage_fast_stack [a.toCsr] := by
    rw [vstack]
    split
    · next hcsr =>
      have : a.storage = CSR := by simpa using hcsr
      rw [toCsr_eq_self a this]
    · rfl
  have hMs' : M.storage = CSR := by rw [hMs, toCsr_storage]
  refine ⟨M, by rw [hall, hM], hMs', ?_, ?_, ?_⟩
  · rw [nrows_eq_outerDims_of_csr M hMs', hMo, toCsr_outerDims]
  · rw [ncols_eq_innerDims_of_csr M hMs', hMi, toCsr_innerDims]
  · intro i j
    rw [getEntryOpt_congr M a.toCsr hMs hMv i j]
    cases hsa : a.storage with
    | CSR => rw [toCsr_eq_self a hsa]
    | CSC => exact getEntryOpt_toCsr a hb i j

/-- C5 (amended): among grids with exactly one present cell and every other
cell absent, only the 1×1 grid passes the `EmptyBmatRow`/`EmptyBmatCol`
checks, and on it `bmat` returns `Ok` with the block itself in row-major
form — the block embedded at offset (0,0) in a matrix of the inferred
shape, which is the block's own shape. (Requires the stored-index bound of
the compressed-format invariant.) -/
theorem bmat_single_block (a : CsMat) (hb : InnerBounded a) :
    ∃ m, bmat [[some a]] = .ok m ∧ m.storage = CSR ∧ m.nrows = a.nrows ∧
      m.ncols = a.ncols ∧ ∀ i j, m.getEntryOpt i j = a.getEntryOpt i j := by
  obtain ⟨R, hR, hRs, hRr, hRc, hRb, hRe⟩ := hstack_single a hb
  obtain ⟨M, hM, hMs, hMr, hMc, hMe⟩ := vstack_single R hRb
  have h1 : bmat [[some a]] = (match (match hstack [a] with
      | .error e => (.error e : Except SprsError (List CsMat))
      | .ok band => .ok [band]) with
    | .error e => (.error e : Except SprsError CsMat)
    | .ok bands => vstack bands) := rfl
  have h2 : bmat [[some a]] = vstack [R] := by rw [h1, hR]
  refine ⟨M, by rw [h2, hM], hMs, by rw [hMr, hRr], by rw [hMc, hRc], ?_⟩
  intro i j
  rw [hMe i j, hRe i j]

/-- C5 counterexample: a 2×1 grid whose only present cell is the top block —
exactly one present cell, every other cell absent — on which `bmat` returns
the `EmptyBmatRow` error instead of an embedding of the block. -/
theorem bmat_single_block_counterexample :
    bmat [[some ⟨CSR, 1, 1, [0, 1], [0], [4]⟩], [none]] =
      .error .EmptyBmatRow := rfl

theorem bmat_single_block_witness :
    InnerBounded ⟨CSR, 1, 2, [0, 1], [1], [7]⟩ ∧
    ∃ m, bmat [[some (⟨CSR, 1, 2, [0, 1], [1], [7]⟩ : CsMat)]] = .ok m ∧
      m.storage = CSR ∧
      m.nrows = (⟨CSR, 1, 2, [0, 1], [1], [7]⟩ : CsMat).nrows ∧
      m.ncols = (⟨CSR, 1, 2, [0, 1], [1], [7]⟩ : CsMat).ncols ∧
      ∀ i j, m.getEntryOpt i j =
        (⟨CSR, 1, 2, [0, 1], [1], [7]⟩ : CsMat).getEntryOpt i j :=
  ⟨by unfold InnerBounded; decide, bmat_single_block _ (by unfold InnerBounded; decide)⟩

/-! ## Matrix-Market reader theorems -/

theorem parseNatTok_neg (t : List Char) : parseNatTok ('-' :: t) = none := rfl

theorem splitWS_data_ne_nil (s : String) (l : List (List Char))
    (h : splitWS s = l) (hl : l ≠ []) : s.data.isEmpty = false := by
  cases hd : s.data with
  | nil =>
    exfalso
    apply hl
    rw [← h]
    show splitWSAux [] s.data = []
    rw [hd]
    rfl
  | cons c cs => rfl

/-- C8: evaluation of the header-line handling. The code's comment declares
all header tags case-insensitive, and the object/format/qualifier tags are
compared on the lowercased header, but the numeric-kind tag is searched for
in the raw line: a file spelling the kind `REAL` (or `INTEGER`) is rejected
with `UnsupportedMatrixMarketFormat`, while the identical file with a
lowercase kind tag parses successfully. -/
theorem read_mm_header_case_eval :
    read_matrix_market ["%%MatrixMarket matrix coordinate REAL general\n",
      "1 1 1\n", "1 1 2.5\n"] =
      some (.error .UnsupportedMatrixMarketFormat) ∧
    read_matrix_market ["%%MatrixMarket Matrix Coordinate INTEGER General\n",
      "1 1 1\n", "1 1 2\n"] =
      some (.error .UnsupportedMatrixMarketFormat) ∧
    read_matrix_market ["%%matrixmarket matrix coordinate integer general\n",
      "1 1 1\n", "1 1 2\n"] =
      some (.ok ⟨1, 1, [0], [0], [.int 2]⟩) :=
  ⟨rfl, rfl, rfl⟩

/-- C9: evaluation of the line skipping between header and dimension line.
Comment lines (prefixed `%`) are skipped, but a blank line is not: a blank
line reads with length 1 (its newline), escapes the `len == 0` test that the
code's comment intends for empty lines, is consumed as the dimension line
and the parse fails — against both the code's own comment and the spec. -/
theorem read_mm_skip_lines_eval :
    read_matrix_market ["%%matrixmarket matrix coordinate integer general\n",
      "% comment line\n", "% another comment\n", "2 2 1\n", "1 2 5\n"] =
      some (.ok ⟨2, 2, [0], [1], [.int 5]⟩) ∧
    read_matrix_market ["%%matrixmarket matrix coordinate integer general\n",
      "\n", "2 2 1\n", "1 2 5\n"] =
      some (.error .BadMatrixMarketFile) :=
  ⟨rfl, rfl⟩

/-- C10: in a file of integer numeric kind, a data line whose value field is
a negative integer — written `-` followed by digits — fails with
`BadMatrixMarketFile`, because the value is parsed as an unsigned integer;
this holds for the data-line parser, at any position of the entry loop, and
for a complete file. -/
theorem read_mm_negative_integer_value (dline : String) (extra : List String)
    (rt ct t : List Char) (r c : Nat)
    (hsplit : splitWS dline = [rt, ct, '-' :: t])
    (hr : parseNatTok rt = some r) (hc : parseNatTok ct = some c)
    (hr0 : r ≠ 0) (hc0 : c ≠ 0) :
    parseDataLine .Integer dline = .error .BadMatrixMarketFile ∧
    (∀ k rest ri ci ds,
      readEntries .Integer (k + 1) (dline :: rest) ri ci ds =
        some (.error .BadMatrixMarketFile)) ∧
    read_matrix_market
      ("%%matrixmarket matrix coordinate integer general\n" ::
        "2 3 1\n" :: dline :: extra) =
      some (.error .BadMatrixMarketFile) := by
  have hne : dline.data.isEmpty = false :=
    splitWS_data_ne_nil dline _ hsplit (by simp)
  have hp1 : parseDataLine .Integer dline = .error .BadMatrixMarketFile := by
    simp only [parseDataLine, hsplit, hr, hc, parseNatTok_neg,
      Option.map_none']
    rw [if_neg (show ¬(r = 0 ∨ c = 0) by omega)]
  have hp2 : ∀ k rest ri ci ds,
      readEntries .Integer (k + 1) (dline :: rest) ri ci ds =
        some (.error .BadMatrixMarketFile) := by
    intro k rest ri ci ds
    have hskip : skipEmptyLines (dline :: rest) = some (dline, rest) := by
      simp [skipEmptyLines, hne]
    simp only [readEntries, hskip, hp1]
  refine ⟨hp1, hp2, ?_⟩
  have h3 : read_matrix_market
      ("%%matrixmarket matrix coordinate integer general\n" ::
        "2 3 1\n" :: dline :: extra) =
      finishEntries 2 3 (readEntries .Integer 1 (dline :: extra) [] [] []) :=
    rfl
  rw [h3, hp2 0 extra [] [] []]
  rfl

theorem read_mm_negative_integer_value_witness :
    (splitWS "1 2 -4\n" = [['1'], ['2'], ['-', '4']] ∧
      parseNatTok ['1'] = some 1 ∧ parseNatTok ['2'] = some 2 ∧
      (1 : Nat) ≠ 0 ∧ (2 : Nat) ≠ 0) ∧
    (parseDataLine .Integer "1 2 -4\n" = .error .BadMatrixMarketFile ∧
      (∀ k rest ri ci ds,
        readEntries .Integer (k + 1) ("1 2 -4\n" :: rest) ri ci ds =
          some (.error .BadMatrixMarketFile)) ∧
      read_matrix_market
        ("%%matrixmarket matrix coordinate integer general\n" ::
          "2 3 1\n" :: "1 2 -4\n" :: ([] : List String)) =
        some (.error .BadMatrixMarketFile)) :=
  ⟨⟨by decide, rfl, rfl, by decide, by decide⟩,
    read_mm_negative_integer_value "1 2 -4\n" [] ['1'] ['2'] ['4'] 1 2
      (by decide) rfl rfl (by decide) (by decide)⟩

theorem same_storage_fast_stack_error_modes_witness :
    same_storage_fast_stack [] = .error .EmptyStackingList :=
  (same_storage_fast_stack_error_modes []).1.mpr rfl

theorem csr_from_dense_sorted_witness :
    (([(0, 3), (2, -5)] : List (Nat × Int)) ∈
      (csr_from_dense [[3, 0, -5]] 0).outerVecs) ∧
    (([(0, 3), (2, -5)] : List (Nat × Int)).map Prod.fst).Pairwise
      (fun a b => a < b) :=
  ⟨by decide, csr_from_dense_sorted [[3, 0, -5]] 0 _ (by decide)⟩
